import Mathlib

/-!
Verification of the placeholder-substitution engine of `harigamiweb.py`.

Text is modelled as `List Char` (a Python `str` is a sequence of unicode
code points).  Python's substring test `pat in s` is `isSubstr pat s`, and
`s.replace(pat, rep)` is `replaceAll pat rep s` (left-to-right,
non-overlapping, all occurrences).  An uncaught `KeyError` raised by a
`replacements[key]` lookup is modelled by returning `none`.
-/

namespace Harigami

/-- Python `pat in s` (substring containment) for `pat` against `s`. -/
def isSubstr (pat : List Char) : List Char → Bool
  | [] => pat.isEmpty
  | c :: rest => pat.isPrefixOf (c :: rest) || isSubstr pat rest

/-- Recursion core of Python `s.replace(pat, rep)`: replace every
occurrence of `pat` by `rep`, scanning left to right, non-overlapping.
The source never calls `replace` with an empty pattern, so the
empty-pattern behaviour (Python would interleave `rep` everywhere) is
irrelevant; here an empty pattern leaves the string unchanged. -/
def replaceAllAux (pat rep : List Char) : Nat → List Char → List Char
  | _, [] => []
  | 0, s => s
  | fuel + 1, c :: rest =>
    if pat ≠ [] ∧ pat.isPrefixOf (c :: rest) then
      rep ++ replaceAllAux pat rep fuel ((c :: rest).drop pat.length)
    else
      c :: replaceAllAux pat rep fuel rest

/-- Python `s.replace(pat, rep)` realised via `replaceAllAux` with enough
fuel; the fuel argument only makes the recursion structural (a match
consumes at least one character), it never changes the result when
`s.length` units are supplied. -/
def replaceAll (pat rep s : List Char) : List Char :=
  replaceAllAux pat rep s.length s

/-- Run-level font attributes tracked by the source: size, bold, italic,
underline, color (rgb value).  `none` models an unset (inherited)
attribute, i.e. Python `None` / an absent explicit color. -/
structure Font where
  size : Option Nat
  bold : Option Bool
  italic : Option Bool
  underline : Option Bool
  colorRgb : Option Nat
deriving DecidableEq, Repr

/-- One formatting run of a paragraph: its text and its font. -/
structure Run where
  text : List Char
  font : Font
deriving DecidableEq, Repr

/-- Paragraph alignment values relevant to the source (`WD_ALIGN_PARAGRAPH`);
only `center` is ever assigned by the code. -/
inductive Alignment where
  | center
  | left
deriving DecidableEq, Repr

/-- A paragraph: an ordered list of runs plus an alignment
(`none` = inherited/default). -/
structure Paragraph where
  runs : List Run
  alignment : Option Alignment
deriving DecidableEq, Repr

/-- Concatenated text of a list of runs. -/
def runsText (runs : List Run) : List Char := (runs.map Run.text).flatten

/-- `paragraph.text`: the concatenation of the texts of its runs. -/
def Paragraph.text (p : Paragraph) : List Char := runsText p.runs

/-- The fixed placeholder table `PLACEHOLDERS` of the source, in its
declaration order (token text, symbolic key). -/
def PLACEHOLDERS : List (List Char × String) :=
  [("［10月　19日（水）］".data, "DATE"),
   ("［10:00］".data, "START_TIME"),
   ("［11:00］".data, "END_TIME"),
   ("［物件名］".data, "NAME")]

/-- The keys that trigger centering in the source:
`key in ["DATE", "START_TIME", "END_TIME"]`. -/
def CENTER_KEYS : List String := ["DATE", "START_TIME", "END_TIME"]

/-- Python truthiness of the snapshotted `run.font.size`
(`if original_font_size:`): `None` and a zero length are falsy. -/
def sizeTruthy : Option Nat → Bool
  | none => false
  | some n => n != 0

/-- `run.font.color.rgb = value`: the `ColorFormat.rgb` setter is a no-op
when assigned `None` while no color is set; assigning an rgb value sets it. -/
def setColorRgb (r : Run) (v : Option Nat) : Run :=
  match v with
  | none => r
  | some c => { r with font := { r.font with colorRgb := some c } }

/-- The body of the in-run branch of `replace_placeholders_preserve_format`
for one matching run: snapshot the font attributes, assign the replaced
text (the `run.text` setter of the rich-text runtime rewrites only the
text content of the run, leaving its formatting element intact), then
reapply each snapshotted attribute under the source's truthiness guards.
`original_color` is a live proxy, so `original_color.rgb` read after the
text assignment is the run's current rgb value. -/
def processRun (ph val : List Char) (r : Run) : Run :=
  let original_font_size := r.font.size
  let original_bold := r.font.bold
  let original_italic := r.font.italic
  let original_underline := r.font.underline
  let r1 : Run := { r with text := replaceAll ph val r.text }
  let r2 := if sizeTruthy original_font_size then
      { r1 with font := { r1.font with size := original_font_size } } else r1
  let r3 := if original_bold.isSome then
      { r2 with font := { r2.font with bold := original_bold } } else r2
  let r4 := if original_italic.isSome then
      { r3 with font := { r3.font with italic := original_italic } } else r3
  let r5 := if original_underline.isSome then
      { r4 with font := { r4.font with underline := original_underline } } else r4
  setColorRgb r5 r5.font.colorRgb

/-- The `for run in paragraph.runs` loop of the in-run branch: process the
first run whose text contains the token, then `break`.  `repl` is the
(possibly absent) value of `replacements[key]`; the lookup happens inside
the matching branch, so a missing key raises (`none`) only when some run
matches. -/
def inRunPass (ph : List Char) (repl : Option (List Char)) :
    List Run → Option (List Run)
  | [] => some []
  | r :: rest =>
    if isSubstr ph r.text then
      match repl with
      | none => none
      | some val => some (processRun ph val r :: rest)
    else
      (inRunPass ph repl rest).map (fun rs => r :: rs)

/-- `replace_text_across_runs`: if the token occurs in the concatenation of
all run texts, assign the fully replaced concatenation to the first run and
clear the text of every later run. -/
def replace_text_across_runs (runs : List Run)
    (search_text replaceWith : List Char) : List Run :=
  let full_text := runsText runs
  if isSubstr search_text full_text then
    match runs with
    | [] => []
    | first_run :: rest =>
      { first_run with text := replaceAll search_text replaceWith full_text } ::
        rest.map (fun r => { r with text := [] })
  else runs

/-- The body of one `for ph, key in PLACEHOLDERS.items()` iteration whose
token occurs in the paragraph's (frozen) full text: the in-run attempt,
then the cross-run fallback when the token is still present in the
recomputed text.  `repl = replacements[key]` lookups that find no entry
raise a `KeyError`, modelled as `none`. -/
def processPh (repl : Option (List Char)) (ph : List Char)
    (runs : List Run) : Option (List Run) :=
  match inRunPass ph repl runs with
  | none => none
  | some runs1 =>
    let current_text := runsText runs1
    if isSubstr ph current_text then
      match repl with
      | none => none
      | some val => some (replace_text_across_runs runs1 ph val)
    else some runs1

/-- The placeholder loop of `replace_placeholders_preserve_format`:
`full_text` is the paragraph text frozen at entry; `should_center` is the
accumulated centering flag. -/
def processTokens (replacements : String → Option (List Char))
    (full_text : List Char) :
    List (List Char × String) → List Run → Bool → Option (List Run × Bool)
  | [], runs, should_center => some (runs, should_center)
  | (ph, key) :: toks, runs, should_center =>
    if isSubstr ph full_text then
      let sc := should_center || CENTER_KEYS.contains key
      match processPh (replacements key) ph runs with
      | none => none
      | some runs' => processTokens replacements full_text toks runs' sc
    else
      processTokens replacements full_text toks runs should_center

/-- `replace_placeholders_preserve_format(paragraph, replacements)`:
run the placeholder loop over the frozen paragraph text, then set the
paragraph alignment to centered when the flag was raised.  `none` models
an uncaught `KeyError` from a missing replacement key. -/
def replace_placeholders_preserve_format (p : Paragraph)
    (replacements : String → Option (List Char)) : Option Paragraph :=
  match processTokens replacements p.text PLACEHOLDERS p.runs false with
  | none => none
  | some (runs, should_center) =>
    some { runs := runs,
           alignment := if should_center then some Alignment.center
                        else p.alignment }

end Harigami

namespace Harigami

/-- A `pandas` timestamp as far as the source consumes it:
calendar date plus time of day. -/
structure DT where
  year : Nat
  month : Nat
  day : Nat
  hour : Nat
  minute : Nat
deriving DecidableEq, Repr

/-- One spreadsheet row as the generation loop reads it.  The outer
`Option` of each field is `pd.isna` on the raw cell (`none` = missing);
for the two date-time fields the inner `Option` is the outcome of
`pd.to_datetime(..., errors='coerce')` (`none` = unparsable). -/
structure Row where
  bukkenName : Option (List Char)
  yoteiStart : Option (Option DT)
  yoteiEnd : Option (Option DT)
deriving DecidableEq, Repr

/-- Characters Python's `str.strip()` removes (ASCII whitespace plus the
ideographic space; the whitespace actually reachable here). -/
def isSpaceChar (c : Char) : Bool :=
  c == ' ' || c == '\t' || c == '\n' || c == '\r' || c == '　'

/-- Python `s.strip()`. -/
def pyStrip (s : List Char) : List Char :=
  ((s.dropWhile isSpaceChar).reverse.dropWhile isSpaceChar).reverse

/-- Decimal digit as a character. -/
def digitChar (n : Nat) : Char := Char.ofNat (48 + n)

/-- Recursion core of `natChars`; the fuel (one unit per decimal digit
beyond the first) only makes the recursion structural. -/
def natCharsAux : Nat → Nat → List Char
  | 0, n => [digitChar (n % 10)]
  | fuel + 1, n =>
    if n < 10 then [digitChar n]
    else natCharsAux fuel (n / 10) ++ [digitChar (n % 10)]

/-- Decimal rendering of a natural number (Python `str(n)` / `f"{n}"`
for the nonnegative integers that reach it). -/
def natChars (n : Nat) : List Char := natCharsAux n n

/-- `strftime` zero-padded two-digit field (`%H`, `%M`). -/
def pad2 (n : Nat) : List Char :=
  if n < 10 then ['0', digitChar n] else natChars n

/-- `start_dt.strftime('%a')` of the date-time runtime: the three-letter
English weekday abbreviation, computed by Zeller's congruence for the
Gregorian calendar. -/
def dayOfWeekAbbrev (year month day : Nat) : String :=
  let m := if month < 3 then month + 12 else month
  let y := if month < 3 then year - 1 else year
  let k := y % 100
  let j := y / 100
  let h := (day + (13 * (m + 1)) / 5 + k + k / 4 + j / 4 + 5 * j) % 7
  match h with
  | 0 => "Sat"
  | 1 => "Sun"
  | 2 => "Mon"
  | 3 => "Tue"
  | 4 => "Wed"
  | 5 => "Thu"
  | _ => "Fri"

/-- The `weekdays` table of the source mapping the English abbreviation to
the single-character Japanese weekday glyph. -/
def weekdays : List (String × String) :=
  [("Mon", "月"), ("Tue", "火"), ("Wed", "水"), ("Thu", "木"),
   ("Fri", "金"), ("Sat", "土"), ("Sun", "日")]

/-- The replacement set built for one valid row. -/
structure Replacements where
  date_str : List Char
  start_str : List Char
  end_str : List Char
  name : List Char
deriving DecidableEq, Repr

/-- The per-row data phase of the generation loop: the `pd.isna` checks on
the three required cells, `str(...).strip()` of the property name, the
coerced date-time parses, the weekday lookup (a missing key would raise
inside the row's `try` block), and the three formatted strings.  `none`
means the row is skipped (`continue`). -/
def rowToReplacements (row : Row) : Option Replacements :=
  match row.bukkenName, row.yoteiStart, row.yoteiEnd with
  | some rawName, some startCell, some endCell =>
    let name := pyStrip rawName
    match startCell, endCell with
    | some start_dt, some end_dt =>
      match weekdays.lookup (dayOfWeekAbbrev start_dt.year start_dt.month start_dt.day) with
      | none => none
      | some weekday =>
        some { date_str := natChars start_dt.month ++ "月".data ++
                 natChars start_dt.day ++ "日（".data ++ weekday.data ++ "）".data,
               start_str := pad2 start_dt.hour ++ [':'] ++ pad2 start_dt.minute,
               end_str := pad2 end_dt.hour ++ [':'] ++ pad2 end_dt.minute,
               name := name }
    | _, _ => none
  | _, _, _ => none

/-- The filename sanitizer of the source:
`name.replace("/", "_").replace("\\", "_").replace(":", "_").replace(" ", "_").replace("　", "_")`. -/
def safeName (name : List Char) : List Char :=
  replaceAll "　".data ['_']
    (replaceAll [' '] ['_']
      (replaceAll [':'] ['_']
        (replaceAll ['\\'] ['_']
          (replaceAll ['/'] ['_'] name))))

/-- `output_file_name = f"{safe_name}.docx"`. -/
def outputFileName (name : List Char) : List Char :=
  safeName name ++ ".docx".data

/-- `output_path = os.path.join(OUTPUT_DIR, output_file_name)` with
`OUTPUT_DIR = "output_docs"`. -/
def outputPath (name : List Char) : List Char :=
  "output_docs/".data ++ outputFileName name

/-- The saved path of a valid row (the stripped property name, sanitized);
irrelevant (`[]`) for invalid rows, which save nothing. -/
def pathOfRow (row : Row) : List Char :=
  match rowToReplacements row with
  | some repl => outputPath repl.name
  | none => []

/-- A row is valid exactly when the data phase yields a replacement set. -/
def rowIsValid (row : Row) : Bool :=
  (rowToReplacements row).isSome

/-- The row loop of `process_excel_and_generate_docs`, carrying the
accumulated `generated_file_paths` and `processed_count`.  An invalid row
is skipped (`continue`).  For a valid row the loop first checks the
template: if it is absent the whole function `return []`s at once —
modelled by the `true` flag in the result; otherwise the document is
built, saved, and its path recorded. -/
def processLoop (templateExists : Bool) :
    List Row → List (List Char) → Nat → (List (List Char) × Nat × Bool)
  | [], paths, count => (paths, count, false)
  | row :: rest, paths, count =>
    match rowToReplacements row with
    | none => processLoop templateExists rest paths count
    | some repl =>
      if templateExists then
        processLoop templateExists rest
          (paths ++ [outputPath repl.name]) (count + 1)
      else
        ([], count, true)

/-- `process_excel_and_generate_docs`: returns the generated paths and the
final progress report `処理完了: processed_count / total_rows` as a pair
(`none` when the run aborted through the template-missing `return []`,
which skips the final report). -/
def process_excel_and_generate_docs (templateExists : Bool)
    (rows : List Row) : List (List Char) × Option (Nat × Nat) :=
  match processLoop templateExists rows [] 0 with
  | (_, _, true) => ([], none)
  | (paths, count, false) => (paths, some (count, rows.length))

/-- `os.path.basename`: the part of a path after its last `/`. -/
def basename (p : List Char) : List Char :=
  (p.reverse.takeWhile (fun c => c != '/')).reverse

/-- The archive built by the UI: one entry per generated path, named by
the path's basename. -/
def zipEntries (paths : List (List Char)) : List (List Char) :=
  paths.map basename

end Harigami

namespace Harigami

/-- The paragraph of the cross-run split test: two runs reading `［10:`
and `00］`, both with the same font, default alignment. -/
def c1Font : Font :=
  { size := some 24, bold := some true, italic := none,
    underline := none, colorRgb := none }

def c1Para : Paragraph :=
  { runs := [{ text := "［10:".data, font := c1Font },
             { text := "00］".data, font := c1Font }],
    alignment := none }

/-- A replacement set mapping `START_TIME` to `14:30` (the only key the
paragraph's tokens need). -/
def c1Repl : String → Option (List Char) :=
  fun k => if k = "START_TIME" then some "14:30".data else none

end Harigami

namespace Harigami

/-- C1: for a paragraph built from exactly two runs `［10:` and `00］`
(the START_TIME token split at the run boundary), substitution with
`START_TIME ↦ 14:30` yields first run text `14:30`, an emptied second
run, and a centered paragraph. -/
theorem C1_cross_run_split :
    replace_placeholders_preserve_format c1Para c1Repl =
      some { runs := [{ text := "14:30".data, font := c1Font },
                      { text := [], font := c1Font }],
             alignment := some Alignment.center } := by
  decide

end Harigami

namespace Harigami

/-- The work-order row of the row-validity test: property name `Tower A`,
planned start 2024-10-19 10:00, planned end 2024-10-19 11:00. -/
def towerRow : Row :=
  { bukkenName := some "Tower A".data,
    yoteiStart := some (some { year := 2024, month := 10, day := 19,
                               hour := 10, minute := 0 }),
    yoteiEnd := some (some { year := 2024, month := 10, day := 19,
                             hour := 11, minute := 0 }) }

end Harigami

namespace Harigami

/-- C9: the `Tower A` row of 2024-10-19 10:00 to 11:00 is valid, yields the
replacement set DATE `10月19日（土）`, START_TIME `10:00`, END_TIME
`11:00`, NAME `Tower A`, and its document is saved as `Tower_A.docx`. -/
theorem C9_tower_row :
    rowToReplacements towerRow =
      some { date_str := "10月19日（土）".data,
             start_str := "10:00".data,
             end_str := "11:00".data,
             name := "Tower A".data }
    ∧ basename (pathOfRow towerRow) = "Tower_A.docx".data := by
  decide

end Harigami

namespace Harigami

/-- The in-run replacement body never changes the run's font: the text
assignment leaves the formatting element intact and every guarded
reapplication writes back the value just snapshotted. -/
theorem processRun_font (ph val : List Char) (r : Run) :
    (processRun ph val r).font = r.font := by
  rcases r with ⟨t, sz, b, i, u, col⟩
  cases col <;>
    simp only [processRun, setColorRgb] <;>
    split_ifs <;> rfl

/-- The first-matching-run loop preserves the font of every run. -/
theorem inRunPass_font {ph : List Char} {repl : Option (List Char)} :
    ∀ {runs runs' : List Run}, inRunPass ph repl runs = some runs' →
      runs'.map Run.font = runs.map Run.font := by
  intro runs
  induction runs with
  | nil => intro runs' h; simp only [inRunPass, Option.some.injEq] at h; simp [← h]
  | cons r rest ih =>
    intro runs' h
    simp only [inRunPass] at h
    by_cases hs : isSubstr ph r.text = true
    · rw [if_pos hs] at h
      cases repl with
      | none => exact absurd h (by simp)
      | some val =>
        simp only [Option.some.injEq] at h
        simp [← h, processRun_font]
    · rw [if_neg hs] at h
      rcases Option.map_eq_some'.mp h with ⟨rs, hrs, hcons⟩
      simp [← hcons, ih hrs]

/-- The cross-run merge preserves the font of every run. -/
theorem replace_text_across_runs_font (runs : List Run) (s t : List Char) :
    (replace_text_across_runs runs s t).map Run.font = runs.map Run.font := by
  by_cases h : isSubstr s (runsText runs) = true
  · cases runs with
    | nil => simp [replace_text_across_runs, h]
    | cons r rest => simp [replace_text_across_runs, h]
  · simp [replace_text_across_runs, h]

/-- One token pass preserves the font of every run. -/
theorem processPh_font {repl : Option (List Char)} {ph : List Char}
    {runs runs' : List Run} (h : processPh repl ph runs = some runs') :
    runs'.map Run.font = runs.map Run.font := by
  unfold processPh at h
  rcases he : inRunPass ph repl runs with _ | runs1
  · rw [he] at h; exact absurd h (by simp)
  · rw [he] at h
    simp only at h
    split_ifs at h with hs
    · cases repl with
      | none => exact absurd h (by simp)
      | some val =>
        simp only [Option.some.injEq] at h
        rw [← h, replace_text_across_runs_font, inRunPass_font he]
    · simp only [Option.some.injEq] at h
      rw [← h, inRunPass_font he]

/-- The placeholder loop preserves the font of every run. -/
theorem processTokens_font {replacements : String → Option (List Char)}
    {full_text : List Char} :
    ∀ {toks : List (List Char × String)} {runs : List Run} {sc : Bool}
      {runs' : List Run} {sc' : Bool},
      processTokens replacements full_text toks runs sc = some (runs', sc') →
      runs'.map Run.font = runs.map Run.font := by
  intro toks
  induction toks with
  | nil =>
    intro runs sc runs' sc' h
    simp only [processTokens, Option.some.injEq, Prod.mk.injEq] at h
    simp [← h.1]
  | cons pk toks ih =>
    intro runs sc runs' sc' h
    rcases pk with ⟨ph, key⟩
    simp only [processTokens] at h
    split_ifs at h with hs
    · rcases he : processPh (replacements key) ph runs with _ | runs1
      · rw [he] at h; exact absurd h (by simp)
      · rw [he] at h
        rw [ih h, processPh_font he]
    · exact ih h

/-- Run-aware substitution, when it completes, preserves the font of every
run of the paragraph. -/
theorem replace_placeholders_font {p : Paragraph}
    {replacements : String → Option (List Char)} {p' : Paragraph}
    (h : replace_placeholders_preserve_format p replacements = some p') :
    p'.runs.map Run.font = p.runs.map Run.font := by
  unfold replace_placeholders_preserve_format at h
  rcases he : processTokens replacements p.text PLACEHOLDERS p.runs false
    with _ | ⟨runs, sc⟩
  · rw [he] at h; exact absurd h (by simp)
  · rw [he] at h
    simp only [Option.some.injEq] at h
    rw [← h, processTokens_font he]

/-- Equal font images give equal fonts at every position. -/
theorem font_eq_of_map_eq {l l' : List Run}
    (h : l.map Run.font = l'.map Run.font) (i : Nat)
    (hi : i < l.length) (hi' : i < l'.length) :
    (l.get ⟨i, hi⟩).font = (l'.get ⟨i, hi'⟩).font := by
  have h1 : (l.map Run.font).get ⟨i, by simpa using hi⟩ =
      (l'.map Run.font).get ⟨i, by simpa using hi'⟩ :=
    List.get_of_eq h _
  simpa using h1

end Harigami

namespace Harigami

/-- C2: for every paragraph containing a DATE, START_TIME or END_TIME
token confined to one run, after a completed run-aware substitution that
run's font size, bold, italic, underline and color equal their
pre-substitution values (so attributes unset before stay unset). -/
theorem C2_format_preserved (p : Paragraph)
    (replacements : String → Option (List Char)) (p' : Paragraph)
    (h : replace_placeholders_preserve_format p replacements = some p')
    (i : Nat) (hi : i < p.runs.length)
    (htok : ∃ pk ∈ PLACEHOLDERS, CENTER_KEYS.contains pk.2 = true ∧
      isSubstr pk.1 (p.runs.get ⟨i, hi⟩).text = true) :
    ∃ hi' : i < p'.runs.length,
      (p'.runs.get ⟨i, hi'⟩).font = (p.runs.get ⟨i, hi⟩).font := by
  have hf := replace_placeholders_font h
  have hlen : p'.runs.length = p.runs.length := by
    have := congrArg List.length hf
    simpa using this
  exact ⟨hlen ▸ hi, font_eq_of_map_eq hf i (hlen ▸ hi) hi⟩

end Harigami

namespace Harigami

/-- The paragraph of the C2 witness: one run carrying the START_TIME token
with every font attribute set. -/
def c2Font : Font :=
  { size := some 28, bold := some true, italic := some false,
    underline := some true, colorRgb := some 255 }

def c2Para : Paragraph :=
  { runs := [{ text := "開始：［10:00］から".data, font := c2Font }],
    alignment := some Alignment.left }

def c2Repl : String → Option (List Char) :=
  fun k => if k = "START_TIME" then some "14:30".data else some "x".data

def c2Para' : Paragraph :=
  { runs := [{ text := "開始：14:30から".data, font := c2Font }],
    alignment := some Alignment.center }

/-- Witness for C2 at a concrete paragraph. -/
theorem C2_format_preserved_witness :
    ∃ hi' : 0 < c2Para'.runs.length,
      (c2Para'.runs.get ⟨0, hi'⟩).font = (c2Para.runs.get ⟨0, by decide⟩).font :=
  C2_format_preserved c2Para c2Repl c2Para' (by decide) 0 (by decide)
    ⟨("［10:00］".data, "START_TIME"), by decide, by decide, by decide⟩

end Harigami

namespace Harigami

/-- The result of a completed run of `replace_placeholders_preserve_format`
in terms of the placeholder loop. -/
theorem replace_placeholders_eq {p : Paragraph}
    {replacements : String → Option (List Char)} {p' : Paragraph}
    (h : replace_placeholders_preserve_format p replacements = some p') :
    ∃ runs sc,
      processTokens replacements p.text PLACEHOLDERS p.runs false = some (runs, sc) ∧
      p' = { runs := runs,
             alignment := if sc then some Alignment.center else p.alignment } := by
  unfold replace_placeholders_preserve_format at h
  rcases he : processTokens replacements p.text PLACEHOLDERS p.runs false
    with _ | ⟨runs, sc⟩
  · rw [he] at h; exact absurd h (by simp)
  · rw [he] at h
    simp only [Option.some.injEq] at h
    exact ⟨runs, sc, rfl, h.symm⟩

/-- Once the centering flag is raised it stays raised. -/
theorem processTokens_center_mono {replacements : String → Option (List Char)}
    {full_text : List Char} :
    ∀ {toks : List (List Char × String)} {runs runs' : List Run} {sc' : Bool},
      processTokens replacements full_text toks runs true = some (runs', sc') →
      sc' = true := by
  intro toks
  induction toks with
  | nil =>
    intro runs runs' sc' h
    simp only [processTokens, Option.some.injEq, Prod.mk.injEq] at h
    exact h.2.symm
  | cons pk toks ih =>
    intro runs runs' sc' h
    rcases pk with ⟨ph, key⟩
    simp only [processTokens, Bool.true_or] at h
    split_ifs at h with hs
    · rcases he : processPh (replacements key) ph runs with _ | runs1
      · rw [he] at h; exact absurd h (by simp)
      · rw [he] at h; exact ih h
    · exact ih h

/-- A centering token present in the frozen full text forces the final
centering flag. -/
theorem processTokens_center_trigger {replacements : String → Option (List Char)}
    {full_text ph : List Char} {key : String} :
    ∀ {toks : List (List Char × String)} {runs runs' : List Run} {sc sc' : Bool},
      (ph, key) ∈ toks → CENTER_KEYS.contains key = true →
      isSubstr ph full_text = true →
      processTokens replacements full_text toks runs sc = some (runs', sc') →
      sc' = true := by
  intro toks
  induction toks with
  | nil => intro runs runs' sc sc' hmem; exact absurd hmem (by simp)
  | cons pk toks ih =>
    intro runs runs' sc sc' hmem hck hsub h
    rcases pk with ⟨ph0, key0⟩
    rcases List.mem_cons.mp hmem with heq | htl
    · rcases Prod.mk.injEq .. ▸ heq with ⟨hph, hkey⟩
      subst hph; subst hkey
      simp only [processTokens] at h
      rw [if_pos hsub, hck] at h
      simp only [Bool.or_true] at h
      rcases he : processPh (replacements key) ph runs with _ | runs1
      · rw [he] at h; exact absurd h (by simp)
      · rw [he] at h; exact processTokens_center_mono h
    · simp only [processTokens] at h
      split_ifs at h with hs
      · rcases he : processPh (replacements key0) ph0 runs with _ | runs1
        · rw [he] at h; exact absurd h (by simp)
        · rw [he] at h; exact ih htl hck hsub h
      · exact ih htl hck hsub h

/-- If no token present in the frozen full text carries a centering key,
the centering flag is left as it was. -/
theorem processTokens_center_false {replacements : String → Option (List Char)}
    {full_text : List Char} :
    ∀ {toks : List (List Char × String)},
      (∀ pk ∈ toks, isSubstr pk.1 full_text = true →
        CENTER_KEYS.contains pk.2 = false) →
      ∀ {runs runs' : List Run} {sc sc' : Bool},
        processTokens replacements full_text toks runs sc = some (runs', sc') →
        sc' = sc := by
  intro toks
  induction toks with
  | nil =>
    intro _ runs runs' sc sc' h
    simp only [processTokens, Option.some.injEq, Prod.mk.injEq] at h
    exact h.2.symm
  | cons pk toks ih =>
    intro hno runs runs' sc sc' h
    rcases pk with ⟨ph, key⟩
    simp only [processTokens] at h
    split_ifs at h with hs
    · have hck : CENTER_KEYS.contains key = false :=
        hno (ph, key) (by simp) hs
      rw [hck] at h
      simp only [Bool.or_false] at h
      rcases he : processPh (replacements key) ph runs with _ | runs1
      · rw [he] at h; exact absurd h (by simp)
      · rw [he] at h
        exact ih (fun pk hpk => hno pk (List.mem_cons_of_mem _ hpk)) h
    · exact ih (fun pk hpk => hno pk (List.mem_cons_of_mem _ hpk)) h

end Harigami

namespace Harigami

/-- C4: a paragraph whose visible text contains a DATE, START_TIME or
END_TIME token is centered by a completed substitution, while a paragraph
whose present tokens are all NAME keeps its alignment unchanged. -/
theorem C4_centering (p : Paragraph)
    (replacements : String → Option (List Char)) (p' : Paragraph)
    (h : replace_placeholders_preserve_format p replacements = some p') :
    ((∃ pk ∈ PLACEHOLDERS, CENTER_KEYS.contains pk.2 = true ∧
        isSubstr pk.1 p.text = true) →
      p'.alignment = some Alignment.center)
    ∧ ((∀ pk ∈ PLACEHOLDERS, isSubstr pk.1 p.text = true → pk.2 = "NAME") →
      p'.alignment = p.alignment) := by
  rcases replace_placeholders_eq h with ⟨runs, sc, he, hp'⟩
  constructor
  · rintro ⟨pk, hmem, hck, hsub⟩
    have hsc : sc = true := by
      rcases pk with ⟨ph, key⟩
      exact processTokens_center_trigger hmem hck hsub he
    subst hp'
    simp [hsc]
  · intro hname
    have hsc : sc = false := by
      refine processTokens_center_false ?_ he
      intro pk hpk hsub
      rw [hname pk hpk hsub]
      decide
    subst hp'
    simp [hsc]

end Harigami

namespace Harigami

/-- The paragraph of the C4 witness: a single run whose only token is the
NAME placeholder, left-aligned. -/
def c4Para : Paragraph :=
  { runs := [{ text := "物件：［物件名］".data, font := c1Font }],
    alignment := some Alignment.left }

def c4Repl : String → Option (List Char) :=
  fun _ => some "ABCマンション".data

def c4Para' : Paragraph :=
  { runs := [{ text := "物件：ABCマンション".data, font := c1Font }],
    alignment := some Alignment.left }

/-- Witness for C4: on a NAME-only paragraph the substitution completes
and the alignment is unchanged. -/
theorem C4_centering_witness :
    replace_placeholders_preserve_format c4Para c4Repl = some c4Para'
    ∧ c4Para'.alignment = c4Para.alignment :=
  ⟨by decide, (C4_centering c4Para c4Repl c4Para' (by decide)).2 (by decide)⟩

end Harigami

namespace Harigami

/-- Tokens absent from the frozen full text leave the loop state alone. -/
theorem processTokens_skip {replacements : String → Option (List Char)}
    {full_text : List Char} :
    ∀ {toks : List (List Char × String)},
      (∀ pk ∈ toks, isSubstr pk.1 full_text = false) →
      ∀ (runs : List Run) (sc : Bool),
        processTokens replacements full_text toks runs sc = some (runs, sc) := by
  intro toks
  induction toks with
  | nil => intro _ runs sc; rfl
  | cons pk toks ih =>
    intro hno runs sc
    rcases pk with ⟨ph, key⟩
    have hs : isSubstr ph full_text = false := hno (ph, key) (by simp)
    simp only [processTokens, hs]
    exact ih (fun pk hpk => hno pk (List.mem_cons_of_mem _ hpk)) runs sc

/-- C5: a paragraph whose visible text contains no placeholder token is
returned entirely unchanged — same runs, same formatting, same
alignment. -/
theorem C5_frame (p : Paragraph) (replacements : String → Option (List Char))
    (h : ∀ pk ∈ PLACEHOLDERS, isSubstr pk.1 p.text = false) :
    replace_placeholders_preserve_format p replacements = some p := by
  unfold replace_placeholders_preserve_format
  rw [processTokens_skip h p.runs false]
  rfl

/-- The paragraph of the C5 witness: token-free text. -/
def c5Para : Paragraph :=
  { runs := [{ text := "お知らせです".data, font := c2Font }],
    alignment := none }

/-- Witness for C5 at a concrete token-free paragraph. -/
theorem C5_frame_witness :
    replace_placeholders_preserve_format c5Para (fun _ => none) = some c5Para :=
  C5_frame c5Para (fun _ => none) (by decide)

end Harigami

namespace Harigami

/-- The paragraph of the C3 counterexample: one run carrying the NAME
token. -/
def c3Para : Paragraph :=
  { runs := [{ text := "お知らせ：［物件名］".data, font := c1Font }],
    alignment := none }

/-- A replacement set supplying every key except NAME. -/
def c3Repl : String → Option (List Char) :=
  fun k => if k = "NAME" then none else some "14:30".data

end Harigami

namespace Harigami

/-- C3 counterexample: with the NAME token present in the paragraph and
the replacement set lacking the NAME key, run-aware substitution does not
skip the token and keep the text — it raises (`replacements[key]` is a
`KeyError`, modelled by `none`). -/
theorem C3_counterexample :
    replace_placeholders_preserve_format c3Para c3Repl = none := by
  decide

/-- With a missing replacement value, the in-run loop either raises or
leaves every run untouched. -/
theorem inRunPass_missing (ph : List Char) :
    ∀ runs : List Run,
      inRunPass ph none runs = none ∨ inRunPass ph none runs = some runs := by
  intro runs
  induction runs with
  | nil => exact Or.inr rfl
  | cons r rest ih =>
    by_cases hs : isSubstr ph r.text = true
    · left; simp [inRunPass, hs]
    · rcases ih with h | h
      · left; simp [inRunPass, hs, h]
      · right; simp [inRunPass, hs, h]

/-- A token present in the runs' concatenated text whose key has no
replacement makes the token pass raise. -/
theorem processPh_missing {ph : List Char} {runs : List Run}
    (hsub : isSubstr ph (runsText runs) = true) :
    processPh none ph runs = none := by
  unfold processPh
  rcases inRunPass_missing ph runs with h | h <;> rw [h]
  simp [hsub]

end Harigami

namespace Harigami

/-- The Bool prefix test characterised by an append decomposition. -/
theorem isPrefixOf_iff_append {p s : List Char} :
    p.isPrefixOf s = true ↔ ∃ w, s = p ++ w := by
  induction p generalizing s with
  | nil => simp [List.isPrefixOf]
  | cons c p' ih =>
    cases s with
    | nil => simp [List.isPrefixOf]
    | cons d s' =>
      simp only [List.isPrefixOf, Bool.and_eq_true, beq_iff_eq, List.cons_append,
        List.cons.injEq]
      constructor
      · rintro ⟨rfl, hp⟩
        rcases ih.mp hp with ⟨w, rfl⟩
        exact ⟨w, rfl, rfl⟩
      · rintro ⟨w, hd, hs⟩
        exact ⟨hd.symm, ih.mpr ⟨w, hs⟩⟩

/-- The Bool substring test characterised by an append decomposition. -/
theorem isSubstr_iff_append {t s : List Char} :
    isSubstr t s = true ↔ ∃ u v, s = u ++ t ++ v := by
  induction s with
  | nil =>
    simp only [isSubstr, List.isEmpty_iff]
    constructor
    · rintro rfl
      exact ⟨[], [], rfl⟩
    · rintro ⟨u, v, huv⟩
      rcases List.append_eq_nil.mp huv.symm with ⟨h1, h2⟩
      exact (List.append_eq_nil.mp h1).2
  | cons c s' ih =>
    simp only [isSubstr, Bool.or_eq_true]
    constructor
    · rintro (hp | hs)
      · rcases isPrefixOf_iff_append.mp hp with ⟨w, hw⟩
        exact ⟨[], w, by simp [hw]⟩
      · rcases ih.mp hs with ⟨u, v, huv⟩
        exact ⟨c :: u, v, by simp [huv]⟩
    · rintro ⟨u, v, huv⟩
      cases u with
      | nil =>
        refine Or.inl (isPrefixOf_iff_append.mpr ⟨v, ?_⟩)
        simpa using huv
      | cons d u' =>
        rw [List.cons_append, List.cons_append] at huv
        injection huv with h1 h2
        exact Or.inr (ih.mpr ⟨u', v, h2⟩)

/-- Splitting an equality of concatenations at the seam. -/
theorem append_eq_append_cases :
    ∀ (a b c d : List Char), a ++ b = c ++ d →
      (∃ k, c = a ++ k ∧ b = k ++ d) ∨ (∃ k, a = c ++ k ∧ d = k ++ b) := by
  intro a
  induction a with
  | nil =>
    intro b c d h
    exact Or.inl ⟨c, rfl, by simpa using h⟩
  | cons x a' ih =>
    intro b c d h
    cases c with
    | nil =>
      refine Or.inr ⟨x :: a', rfl, ?_⟩
      simpa using h.symm
    | cons y c' =>
      rw [List.cons_append, List.cons_append] at h
      injection h with h1 h2
      subst h1
      rcases ih b c' d h2 with ⟨k, hk1, hk2⟩ | ⟨k, hk1, hk2⟩
      · exact Or.inl ⟨k, by rw [hk1, List.cons_append], hk2⟩
      · exact Or.inr ⟨k, by rw [hk1, List.cons_append], hk2⟩

/-- The bracket structure every placeholder token has: it opens with `［`
and contains no further `［`.  Occurrences of two such tokens can
therefore never overlap. -/
def tokenShape (t : List Char) : Bool :=
  match t with
  | [] => false
  | c :: t' => c == '［' && !(t'.contains '［')

theorem tokenShape_iff {t : List Char} :
    tokenShape t = true ↔
      ∃ t', t = '［' :: t' ∧ t'.contains '［' = false := by
  cases t with
  | nil => simp [tokenShape]
  | cons c t' =>
    simp only [tokenShape, Bool.and_eq_true, beq_iff_eq, Bool.not_eq_true',
      List.cons.injEq]
    constructor
    · rintro ⟨rfl, hc⟩
      exact ⟨t', ⟨rfl, rfl⟩, hc⟩
    · rintro ⟨t'', ⟨hc, ht⟩, hcon⟩
      subst hc
      subst ht
      exact ⟨rfl, hcon⟩

/-- A substring of the right part occurs in the whole concatenation. -/
theorem isSubstr_append_right {t w : List Char} (x : List Char)
    (h : isSubstr t w = true) : isSubstr t (x ++ w) = true := by
  rcases isSubstr_iff_append.mp h with ⟨u, v, rfl⟩
  exact isSubstr_iff_append.mpr ⟨x ++ u, v, by simp⟩

/-- A substring of the left part occurs in the whole concatenation. -/
theorem isSubstr_append_left {t x : List Char} (w : List Char)
    (h : isSubstr t x = true) : isSubstr t (x ++ w) = true := by
  rcases isSubstr_iff_append.mp h with ⟨u, v, rfl⟩
  exact isSubstr_iff_append.mpr ⟨u, v ++ w, by simp⟩

/-- A substring of the tail occurs in the whole list. -/
theorem isSubstr_cons_of {t s : List Char} (c : Char)
    (h : isSubstr t s = true) : isSubstr t (c :: s) = true := by
  simp [isSubstr, h]

/-- Two prefix-incomparable tokens cannot start at the same position. -/
theorem token_not_head {t pat w Y : List Char}
    (hpt : pat.isPrefixOf t = false) (htp : t.isPrefixOf pat = false)
    (h : t ++ w = pat ++ Y) : False := by
  rcases append_eq_append_cases t w pat Y h with ⟨k, hk1, _⟩ | ⟨k, hk1, _⟩
  · exact absurd (isPrefixOf_iff_append.mpr ⟨k, hk1⟩) (by simp [htp])
  · exact absurd (isPrefixOf_iff_append.mpr ⟨k, hk1⟩) (by simp [hpt])

/-- A token occurring in `pat ++ Y` for a different token `pat` lies
entirely inside `Y`: distinct bracket tokens cannot overlap. -/
theorem token_in_pat_append {t pat Y : List Char}
    (ht : tokenShape t = true) (hpat : tokenShape pat = true)
    (hpt : pat.isPrefixOf t = false) (htp : t.isPrefixOf pat = false)
    (h : isSubstr t (pat ++ Y) = true) : isSubstr t Y = true := by
  rcases isSubstr_iff_append.mp h with ⟨u, v, huv⟩
  rw [List.append_assoc] at huv
  rcases append_eq_append_cases pat Y u (t ++ v) huv with
    ⟨k, hk1, hk2⟩ | ⟨k, hk1, hk2⟩
  · exact isSubstr_iff_append.mpr ⟨k, v, by simp [hk2]⟩
  · cases k with
    | nil =>
      exact isSubstr_iff_append.mpr ⟨[], v, by simpa using hk2.symm⟩
    | cons c0 k' =>
      rcases tokenShape_iff.mp ht with ⟨tT, htEq, htNo⟩
      have hc0 : c0 = '［' := by
        rw [htEq, List.cons_append, List.cons_append] at hk2
        injection hk2 with hh _
        exact hh.symm
      subst hc0
      cases u with
      | nil =>
        rw [List.nil_append] at hk1
        rw [← hk1] at hk2
        exact absurd hk2 (fun hcon => token_not_head hpt htp hcon)
      | cons c1 u' =>
        rcases tokenShape_iff.mp hpat with ⟨pT, hpEq, hpNo⟩
        rw [hpEq, List.cons_append] at hk1
        injection hk1 with _ h2
        rw [h2] at hpNo
        simp at hpNo

/-- A token that is a Bool prefix of `X ++ pat ++ Y` already occurs inside
`X`: it cannot reach into the `pat` block. -/
theorem token_prefix_confined {t pat X Y : List Char}
    (ht : tokenShape t = true) (hpat : tokenShape pat = true)
    (hpt : pat.isPrefixOf t = false) (htp : t.isPrefixOf pat = false)
    (h : t.isPrefixOf (X ++ pat ++ Y) = true) :
    isSubstr t X = true := by
  rcases isPrefixOf_iff_append.mp h with ⟨w, hw⟩
  rw [List.append_assoc] at hw
  rcases append_eq_append_cases X (pat ++ Y) t w hw with
    ⟨k, hk1, hk2⟩ | ⟨k, hk1, hk2⟩
  · cases k with
    | nil =>
      rw [List.append_nil] at hk1
      exact isSubstr_iff_append.mpr ⟨[], [], by simp [hk1]⟩
    | cons c0 k' =>
      rcases tokenShape_iff.mp hpat with ⟨pT, hpEq, hpNo⟩
      have hc0 : c0 = '［' := by
        rw [hpEq, List.cons_append] at hk2
        injection hk2 with hh _
        exact hh.symm
      subst hc0
      rcases tokenShape_iff.mp ht with ⟨tT, htEq, htNo⟩
      cases X with
      | nil =>
        rw [List.nil_append] at hk1
        rw [hk1] at htEq hpt htp
        exact absurd hk2.symm (fun hcon => token_not_head hpt htp hcon)
      | cons c1 X' =>
        rw [htEq, List.cons_append] at hk1
        injection hk1 with _ h2
        rw [h2] at htNo
        simp at htNo
  · exact isSubstr_iff_append.mpr ⟨[], k, by simp [hk1]⟩

/-- A token occurring in `X ++ pat ++ Y` for a different token `pat`
occurs in `X` or in `Y`: the `pat` block cannot be straddled. -/
theorem token_split {t pat Y : List Char}
    (ht : tokenShape t = true) (hpat : tokenShape pat = true)
    (hpt : pat.isPrefixOf t = false) (htp : t.isPrefixOf pat = false) :
    ∀ (X : List Char), isSubstr t (X ++ pat ++ Y) = true →
      isSubstr t X = true ∨ isSubstr t Y = true := by
  intro X
  induction X with
  | nil =>
    intro h
    exact Or.inr (token_in_pat_append ht hpat hpt htp (by simpa using h))
  | cons x X' ih =>
    intro h
    have hx : (x :: X') ++ pat ++ Y = x :: (X' ++ pat ++ Y) := by simp
    rw [hx] at h
    simp only [isSubstr, Bool.or_eq_true] at h
    rcases h with hp | hs
    · refine Or.inl (token_prefix_confined (X := x :: X') (Y := Y)
        ht hpat hpt htp ?_)
      rw [hx]
      exact hp
    · rcases ih hs with hX | hY
      · exact Or.inl (isSubstr_cons_of x hX)
      · exact Or.inr hY

/-- Replacing every occurrence of a different token never destroys an
occurrence of `t`, however the string is embedded in a context. -/
theorem replaceAllAux_keeps_token {t pat rep : List Char}
    (ht : tokenShape t = true) (hpat : tokenShape pat = true)
    (hpt : pat.isPrefixOf t = false) (htp : t.isPrefixOf pat = false) :
    ∀ (fuel : Nat) (B : List Char), B.length ≤ fuel →
      ∀ (A C : List Char), isSubstr t (A ++ B ++ C) = true →
        isSubstr t (A ++ replaceAllAux pat rep fuel B ++ C) = true := by
  intro fuel
  induction fuel with
  | zero =>
    intro B hB A C h
    cases B with
    | nil => exact h
    | cons c B' => simp at hB
  | succ fuel ih =>
    intro B hB A C h
    cases B with
    | nil => exact h
    | cons c B' =>
      by_cases hm : pat ≠ [] ∧ pat.isPrefixOf (c :: B') = true
      · rcases isPrefixOf_iff_append.mp hm.2 with ⟨B2, hB2⟩
        have hdrop : (c :: B').drop pat.length = B2 := by
          rw [hB2, List.drop_left]
        simp only [replaceAllAux, if_pos hm, hdrop]
        have h' : isSubstr t (A ++ pat ++ (B2 ++ C)) = true := by
          rw [hB2] at h
          simpa [List.append_assoc] using h
        rcases token_split ht hpat hpt htp A h' with hA | hBC
        · have hall : isSubstr t
              (A ++ (rep ++ (replaceAllAux pat rep fuel B2 ++ C))) = true :=
            isSubstr_append_left _ hA
          simpa [List.append_assoc] using hall
        · have hplen : 0 < pat.length := by
            cases hp : pat with
            | nil => exact absurd hp hm.1
            | cons _ _ => simp
          have hlen : B2.length ≤ fuel := by
            have hlen2 : (c :: B').length = pat.length + B2.length := by
              rw [hB2, List.length_append]
            simp only [List.length_cons] at hlen2 hB
            omega
          have hin : isSubstr t ((A ++ rep) ++ B2 ++ C) = true := by
            have := isSubstr_append_right (A ++ rep) hBC
            simpa [List.append_assoc] using this
          have := ih B2 hlen (A ++ rep) C hin
          simpa [List.append_assoc] using this
      · simp only [replaceAllAux, if_neg hm]
        have h' : isSubstr t ((A ++ [c]) ++ B' ++ C) = true := by
          simpa [List.append_assoc] using h
        have := ih B' (by simpa using Nat.le_of_succ_le_succ hB) (A ++ [c]) C h'
        simpa [List.append_assoc] using this

/-- Occurrence survival for the full `str.replace` of a different token. -/
theorem replaceAll_keeps_token {t pat rep s : List Char}
    (ht : tokenShape t = true) (hpat : tokenShape pat = true)
    (hpt : pat.isPrefixOf t = false) (htp : t.isPrefixOf pat = false)
    (h : isSubstr t s = true) :
    isSubstr t (replaceAll pat rep s) = true := by
  have := @replaceAllAux_keeps_token t pat rep ht hpat hpt htp
    s.length s le_rfl [] [] (by simpa using h)
  simpa [replaceAll] using this

/-- The in-run replacement body rewrites exactly the run's text by the
whole-string replace. -/
theorem processRun_text (ph val : List Char) (r : Run) :
    (processRun ph val r).text = replaceAll ph val r.text := by
  rcases r with ⟨rt, sz, b, i, u, col⟩
  cases col <;> simp only [processRun, setColorRgb] <;> split_ifs <;> rfl

theorem runsText_cons (r : Run) (rest : List Run) :
    runsText (r :: rest) = r.text ++ runsText rest := by
  simp [runsText]

/-- The first-matching-run pass with a supplied value always succeeds and
rewrites one run's text in context. -/
theorem inRunPass_some_decomp (ph val : List Char) :
    ∀ runs : List Run, ∃ runs' A B C,
      inRunPass ph (some val) runs = some runs' ∧
      runsText runs = A ++ B ++ C ∧
      runsText runs' = A ++ replaceAll ph val B ++ C := by
  intro runs
  induction runs with
  | nil =>
    refine ⟨[], [], [], [], rfl, rfl, ?_⟩
    simp [runsText, replaceAll, replaceAllAux]
  | cons r rest ih =>
    by_cases hs : isSubstr ph r.text = true
    · refine ⟨processRun ph val r :: rest, [], r.text, runsText rest, ?_, ?_, ?_⟩
      · simp [inRunPass, hs]
      · simp [runsText_cons]
      · simp [runsText_cons, processRun_text]
    · rcases ih with ⟨rest', A, B, C, h1, h2, h3⟩
      refine ⟨r :: rest', r.text ++ A, B, C, ?_, ?_, ?_⟩
      · simp [inRunPass, hs, h1]
      · simp [runsText_cons, h2, List.append_assoc]
      · simp [runsText_cons, h3, List.append_assoc]

theorem inRunPass_some_isSome (ph val : List Char) (runs : List Run) :
    ∃ runs', inRunPass ph (some val) runs = some runs' := by
  rcases inRunPass_some_decomp ph val runs with ⟨runs', _, _, _, h, _, _⟩
  exact ⟨runs', h⟩

/-- A different token survives the in-run pass. -/
theorem inRunPass_keeps_token {t ph val : List Char}
    (ht : tokenShape t = true) (hph : tokenShape ph = true)
    (hpt : ph.isPrefixOf t = false) (htp : t.isPrefixOf ph = false)
    {runs runs' : List Run}
    (h : inRunPass ph (some val) runs = some runs')
    (hin : isSubstr t (runsText runs) = true) :
    isSubstr t (runsText runs') = true := by
  rcases inRunPass_some_decomp ph val runs with ⟨runs'', A, B, C, h1, h2, h3⟩
  rw [h1] at h
  injection h with h
  subst h
  rw [h3]
  rw [h2] at hin
  have := @replaceAllAux_keeps_token t ph val ht hph hpt htp
    B.length B le_rfl A C hin
  simpa [replaceAll] using this

theorem runsText_cleared (rest : List Run) :
    runsText (rest.map fun r => { r with text := ([] : List Char) }) = [] := by
  induction rest with
  | nil => rfl
  | cons a as ih => simpa [runsText_cons] using ih

/-- The cross-run merge turns the concatenated text into its whole-string
replace. -/
theorem replace_text_across_runs_concat {runs : List Run} {ph val : List Char}
    (hne : ph ≠ []) (hs : isSubstr ph (runsText runs) = true) :
    runsText (replace_text_across_runs runs ph val) =
      replaceAll ph val (runsText runs) := by
  cases runs with
  | nil =>
    exfalso
    have hempty : ph.isEmpty = true := by simpa [runsText, isSubstr] using hs
    exact hne (List.isEmpty_iff.mp hempty)
  | cons r rest =>
    simp only [replace_text_across_runs, hs, if_true]
    rw [runsText_cons, runsText_cleared, List.append_nil]

theorem processPh_some_isSome (ph val : List Char) (runs : List Run) :
    ∃ runs', processPh (some val) ph runs = some runs' := by
  rcases inRunPass_some_isSome ph val runs with ⟨runs1, h1⟩
  unfold processPh
  rw [h1]
  by_cases hs : isSubstr ph (runsText runs1) = true
  · exact ⟨replace_text_across_runs runs1 ph val, by simp [hs]⟩
  · exact ⟨runs1, by simp [hs]⟩

/-- A different token survives a full token pass with a supplied value. -/
theorem processPh_keeps_token {t ph val : List Char}
    (ht : tokenShape t = true) (hph : tokenShape ph = true)
    (hpt : ph.isPrefixOf t = false) (htp : t.isPrefixOf ph = false)
    {runs runs' : List Run}
    (h : processPh (some val) ph runs = some runs')
    (hin : isSubstr t (runsText runs) = true) :
    isSubstr t (runsText runs') = true := by
  unfold processPh at h
  rcases he : inRunPass ph (some val) runs with _ | runs1
  · rw [he] at h
    exact absurd h (by simp)
  · rw [he] at h
    have hin1 : isSubstr t (runsText runs1) = true :=
      inRunPass_keeps_token ht hph hpt htp he hin
    have hne : ph ≠ [] := by
      rcases tokenShape_iff.mp hph with ⟨pT, hpe, _⟩
      simp [hpe]
    by_cases hs : isSubstr ph (runsText runs1) = true
    · simp only [hs, if_true, Option.some.injEq] at h
      subst h
      rw [replace_text_across_runs_concat hne hs]
      exact replaceAll_keeps_token ht hph hpt htp hin1
    · simp only [hs, Bool.false_eq_true, if_false, Option.some.injEq] at h
      subst h
      exact hin1

end Harigami

namespace Harigami

/-- The first placeholder-table entry whose token occurs in the frozen
full text while its key has no replacement: the entry whose lookup the
loop reaches and which raises the `KeyError`. -/
def findMissing (replacements : String → Option (List Char))
    (full_text : List Char) :
    List (List Char × String) → Option (List Char × String)
  | [] => none
  | (ph, key) :: toks =>
    if isSubstr ph full_text && (replacements key).isNone then some (ph, key)
    else findMissing replacements full_text toks

theorem findMissing_mem {replacements : String → Option (List Char)}
    {full_text : List Char} :
    ∀ {toks : List (List Char × String)} {pk : List Char × String},
      findMissing replacements full_text toks = some pk →
      pk ∈ toks ∧ isSubstr pk.1 full_text = true ∧ replacements pk.2 = none := by
  intro toks
  induction toks with
  | nil =>
    intro pk h
    simp [findMissing] at h
  | cons pk0 rest ih =>
    rcases pk0 with ⟨ph0, key0⟩
    intro pk h
    by_cases hc : (isSubstr ph0 full_text && (replacements key0).isNone) = true
    · simp only [findMissing] at h
      rw [if_pos hc] at h
      injection h with h
      subst h
      have h12 : isSubstr ph0 full_text = true ∧
          (replacements key0).isNone = true := by
        simpa using hc
      exact ⟨by simp, h12.1, Option.isNone_iff_eq_none.mp h12.2⟩
    · simp only [findMissing] at h
      rw [if_neg hc] at h
      rcases ih h with ⟨hm, h1, h2⟩
      exact ⟨List.mem_cons_of_mem _ hm, h1, h2⟩

theorem findMissing_isSome {replacements : String → Option (List Char)}
    {full_text : List Char} :
    ∀ {toks : List (List Char × String)},
      (∃ pk ∈ toks, isSubstr pk.1 full_text = true ∧ replacements pk.2 = none) →
      ∃ pk', findMissing replacements full_text toks = some pk' := by
  intro toks
  induction toks with
  | nil =>
    rintro ⟨pk, hmem, _⟩
    exact absurd hmem (by simp)
  | cons pk0 rest ih =>
    rcases pk0 with ⟨ph0, key0⟩
    rintro ⟨pk, hmem, hsub, hmiss⟩
    by_cases hc : (isSubstr ph0 full_text && (replacements key0).isNone) = true
    · exact ⟨(ph0, key0), by simp only [findMissing]; rw [if_pos hc]⟩
    · rcases List.mem_cons.mp hmem with heq | htl
      · subst heq
        exact absurd (by simp [hsub, hmiss]) hc
      · rcases ih ⟨pk, htl, hsub, hmiss⟩ with ⟨pk', h⟩
        exact ⟨pk', by simp only [findMissing]; rw [if_neg hc]; exact h⟩

/-- When the table's first present-but-unsupplied token still occurs in
the runs' concatenated text, the placeholder loop raises: supplied earlier
tokens are replaced without destroying it (tokens never overlap), absent
earlier tokens are skipped, and its own pass hits the failing lookup. -/
theorem processTokens_missing_target {replacements : String → Option (List Char)}
    {full_text : List Char} :
    ∀ (toks : List (List Char × String)),
      (∀ pk ∈ toks, tokenShape pk.1 = true) →
      (∀ pk ∈ toks, ∀ qk ∈ toks, pk.1 ≠ qk.1 → pk.1.isPrefixOf qk.1 = false) →
      (toks.map Prod.fst).Nodup →
      ∀ (ph : List Char) (key : String),
        findMissing replacements full_text toks = some (ph, key) →
        ∀ (runs : List Run) (sc : Bool),
          isSubstr ph (runsText runs) = true →
          processTokens replacements full_text toks runs sc = none := by
  intro toks
  induction toks with
  | nil =>
    intro _ _ _ ph key hfm
    simp [findMissing] at hfm
  | cons pk0 rest ih =>
    rcases pk0 with ⟨ph0, key0⟩
    intro hshape hpfree hnodup ph key hfm runs sc hin
    have hnd' : (rest.map Prod.fst).Nodup := by
      have hh := hnodup
      simp only [List.map_cons, List.nodup_cons] at hh
      exact hh.2
    by_cases hP : isSubstr ph0 full_text = true
    · rcases hK : replacements key0 with _ | val0
      · have hc : (isSubstr ph0 full_text && (replacements key0).isNone) = true := by
          simp [hP, hK]
        simp only [findMissing] at hfm
        rw [if_pos hc] at hfm
        injection hfm with hfm
        have hph : ph = ph0 := (congrArg Prod.fst hfm).symm
        subst hph
        simp only [processTokens, hP, if_true]
        rw [hK, processPh_missing hin]
      · have hc : (isSubstr ph0 full_text && (replacements key0).isNone) = false := by
          simp [hK]
        simp only [findMissing] at hfm
        rw [if_neg (by simp [hc])] at hfm
        have hmem : (ph, key) ∈ rest := (findMissing_mem hfm).1
        have hne : ph ≠ ph0 := by
          intro heq
          have hmap : ph ∈ rest.map Prod.fst := List.mem_map_of_mem Prod.fst hmem
          have hnot : ph0 ∉ rest.map Prod.fst := by
            have hh := hnodup
            simp only [List.map_cons, List.nodup_cons] at hh
            exact hh.1
          exact hnot (heq ▸ hmap)
        rcases processPh_some_isSome ph0 val0 runs with ⟨runs1, hp1⟩
        have hin1 : isSubstr ph (runsText runs1) = true := by
          refine processPh_keeps_token ?_ ?_ ?_ ?_ hp1 hin
          · exact hshape (ph, key) (List.mem_cons_of_mem _ hmem)
          · exact hshape (ph0, key0) (by simp)
          · exact hpfree (ph0, key0) (by simp) (ph, key)
              (List.mem_cons_of_mem _ hmem) (fun hq => hne hq.symm)
          · exact hpfree (ph, key) (List.mem_cons_of_mem _ hmem) (ph0, key0)
              (by simp) hne
        simp only [processTokens, hP, if_true]
        rw [hK, hp1]
        exact ih (fun pk hpk => hshape pk (List.mem_cons_of_mem _ hpk))
          (fun pk hpk qk hqk => hpfree pk (List.mem_cons_of_mem _ hpk) qk
            (List.mem_cons_of_mem _ hqk))
          hnd' ph key hfm runs1 _ hin1
    · have hc : (isSubstr ph0 full_text && (replacements key0).isNone) = false := by
        simp [hP]
      simp only [findMissing] at hfm
      rw [if_neg (by simp [hc])] at hfm
      have hP' : isSubstr ph0 full_text = false := by
        cases hcase : isSubstr ph0 full_text
        · rfl
        · exact absurd hcase hP
      simp only [processTokens, hP', Bool.false_eq_true, if_false]
      exact ih (fun pk hpk => hshape pk (List.mem_cons_of_mem _ hpk))
        (fun pk hpk qk hqk => hpfree pk (List.mem_cons_of_mem _ hpk) qk
          (List.mem_cons_of_mem _ hqk))
        hnd' ph key hfm runs sc hin

end Harigami

namespace Harigami

/-- C3 amended: if the replacement set does not supply the symbolic key of
some placeholder token occurring in the paragraph's visible text, run-aware
substitution raises a KeyError (no result) instead of skipping the token
and leaving the placeholder text in place. -/
theorem C3_missing_key_raises (p : Paragraph)
    (replacements : String → Option (List Char))
    (h : ∃ pk ∈ PLACEHOLDERS, isSubstr pk.1 p.text = true ∧
      replacements pk.2 = none) :
    replace_placeholders_preserve_format p replacements = none := by
  rcases findMissing_isSome h with ⟨⟨ph, key⟩, hfm⟩
  have hpres : isSubstr ph p.text = true := (findMissing_mem hfm).2.1
  unfold replace_placeholders_preserve_format
  rw [processTokens_missing_target PLACEHOLDERS (by decide) (by decide)
    (by decide) ph key hfm p.runs false hpres]

end Harigami

namespace Harigami

/-- The paragraph of the C3 witness: a DATE token (whose key is supplied)
followed by the NAME token split across two runs; only the NAME key is
missing, so the run raises after the DATE substitution completes. -/
def c3MultiPara : Paragraph :=
  { runs := [{ text := "工事日：［10月　19日（水）］　場所：［物件".data,
               font := c1Font },
             { text := "名］".data, font := c1Font }],
    alignment := none }

/-- Witness for the amended C3 at a concrete multi-token paragraph and a
replacement set lacking only the NAME key. -/
theorem C3_missing_key_raises_witness :
    replace_placeholders_preserve_format c3MultiPara c3Repl = none :=
  C3_missing_key_raises c3MultiPara c3Repl
    ⟨("［物件名］".data, "NAME"), by decide, by decide, by decide⟩

end Harigami

namespace Harigami

/-- Replacing a single-character pattern is a character map. -/
theorem replaceAllAux_single (a b : Char) :
    ∀ (fuel : Nat) (s : List Char), s.length ≤ fuel →
      replaceAllAux [a] [b] fuel s =
        s.map (fun c => if c = a then b else c) := by
  intro fuel
  induction fuel with
  | zero =>
    intro s hs
    cases s with
    | nil => rfl
    | cons c rest => simp at hs
  | succ fuel ih =>
    intro s hs
    cases s with
    | nil => rfl
    | cons c rest =>
      simp only [replaceAllAux, List.map_cons]
      by_cases hca : c = a
      · subst hca
        rw [if_pos ⟨List.cons_ne_nil _ _, by simp [List.isPrefixOf]⟩]
        simp only [List.length_cons, List.length_nil, Nat.zero_add,
          List.drop_succ_cons, List.drop_zero, if_pos rfl]
        rw [ih rest (by simpa using Nat.le_of_succ_le_succ hs)]
        rfl
      · rw [if_neg, ih rest (by simpa using Nat.le_of_succ_le_succ hs),
          if_neg hca]
        intro hcon
        have h2 := hcon.2
        simp only [List.isPrefixOf, List.isPrefixOf_nil_left,
          Bool.and_true, beq_iff_eq] at h2
        exact hca h2.symm

/-- `s.replace(single char, single char)` as a character map. -/
theorem replaceAll_single (a b : Char) (s : List Char) :
    replaceAll [a] [b] s = s.map (fun c => if c = a then b else c) :=
  replaceAllAux_single a b s.length s le_rfl

/-- The character-level effect of the source's `safe_name` chain. -/
def sanitizeChar (c : Char) : Char :=
  if c = '/' ∨ c = '\\' ∨ c = ':' ∨ c = ' ' ∨ c = '　' then '_' else c

/-- The five chained `str.replace` calls of the sanitizer amount to one
character map. -/
theorem safeName_eq_map (name : List Char) :
    safeName name = name.map sanitizeChar := by
  have hone : ("　".data : List Char) = ['　'] := rfl
  simp only [safeName, hone, replaceAll_single, List.map_map]
  refine List.map_congr_left ?_
  intro c _
  simp only [Function.comp, sanitizeChar]
  by_cases h1 : c = '/' <;> by_cases h2 : c = '\\' <;> by_cases h3 : c = ':' <;>
    by_cases h4 : c = ' ' <;> by_cases h5 : c = '　' <;>
    simp [h1, h2, h3, h4, h5]

end Harigami

namespace Harigami

/-- C6 counterexample: the property name `A/B: C` is sanitized to
`A_B__C.docx`, which contains a run of two consecutive underscores — the
sanitizer never collapses repeated underscores. -/
theorem C6_counterexample :
    outputFileName "A/B: C".data = "A_B__C.docx".data
    ∧ isSubstr "__".data (outputFileName "A/B: C".data) = true := by
  decide

/-- C6 amended: the sanitizer only maps each of the five characters `/`,
`\`, `:`, space and ideographic space to `_`, character by character — no
collapsing of repeated underscores, no trimming, no fallback name.  The
output filename therefore never contains `/`, `\` or `:`, and `A/B: C`
maps to `A_B__C.docx` (which keeps a double underscore). -/
theorem C6_sanitization :
    (∀ name : List Char, safeName name = name.map sanitizeChar)
    ∧ (∀ name : List Char,
        (safeName name).all
          (fun c => !(c == '/' || c == '\\' || c == ':')) = true)
    ∧ outputFileName "A/B: C".data = "A_B__C.docx".data := by
  refine ⟨safeName_eq_map, ?_, by decide⟩
  intro name
  rw [safeName_eq_map, List.all_map]
  refine List.all_eq_true.mpr ?_
  intro c _
  simp only [Function.comp, sanitizeChar]
  by_cases h1 : c = '/' <;> by_cases h2 : c = '\\' <;> by_cases h3 : c = ':' <;>
    by_cases h4 : c = ' ' <;> by_cases h5 : c = '　' <;>
    simp [h1, h2, h3, h4, h5]

end Harigami

namespace Harigami

/-- With the template present the row loop never aborts: it appends one
path per valid row and counts exactly the valid rows. -/
theorem processLoop_template (rows : List Row) :
    ∀ (paths : List (List Char)) (count : Nat),
      processLoop true rows paths count =
        (paths ++ (rows.filter rowIsValid).map pathOfRow,
         count + (rows.filter rowIsValid).length, false) := by
  induction rows with
  | nil => intro paths count; simp [processLoop]
  | cons row rest ih =>
    intro paths count
    rcases hr : rowToReplacements row with _ | repl
    · have hv : rowIsValid row = false := by simp [rowIsValid, hr]
      simp only [processLoop, hr, ih, List.filter_cons, hv,
        Bool.false_eq_true, if_false]
    · have hv : rowIsValid row = true := by simp [rowIsValid, hr]
      have hp : pathOfRow row = outputPath repl.name := by
        simp [pathOfRow, hr]
      simp only [processLoop, hr, ih, List.filter_cons, hv, if_true,
        List.map_cons, List.length_cons, hp]
      refine congrArg₂ Prod.mk ?_ (congrArg₂ Prod.mk ?_ rfl)
      · simp
      · omega

end Harigami

namespace Harigami

/-- C7: with the template present, a spreadsheet of N rows of which K are
valid yields exactly the K valid rows' paths (each invalid row skipped,
processing continuing), K entries in the archive, and a final progress
report of K out of N. -/
theorem C7_end_to_end (rows : List Row) :
    (process_excel_and_generate_docs true rows).1 =
      (rows.filter rowIsValid).map pathOfRow
    ∧ (process_excel_and_generate_docs true rows).1.length =
      (rows.filter rowIsValid).length
    ∧ (zipEntries (process_excel_and_generate_docs true rows).1).length =
      (rows.filter rowIsValid).length
    ∧ (process_excel_and_generate_docs true rows).2 =
      some ((rows.filter rowIsValid).length, rows.length) := by
  unfold process_excel_and_generate_docs
  rw [processLoop_template]
  simp [zipEntries]

end Harigami

namespace Harigami

/-- With the template absent, a run over rows with no valid row completes
without saving anything. -/
theorem processLoop_noTemplate_allInvalid :
    ∀ (rows : List Row), (∀ row ∈ rows, rowIsValid row = false) →
      ∀ paths count, processLoop false rows paths count =
        (paths, count, false) := by
  intro rows
  induction rows with
  | nil => intro _ paths count; rfl
  | cons row rest ih =>
    intro hall paths count
    have hv : rowIsValid row = false := hall row (by simp)
    rcases hr : rowToReplacements row with _ | repl
    · simp only [processLoop, hr]
      exact ih (fun r hr => hall r (List.mem_cons_of_mem _ hr)) paths count
    · rw [rowIsValid, hr] at hv; simp at hv

/-- With the template absent, the loop aborts with an empty path list at
the first valid row. -/
theorem processLoop_noTemplate_someValid :
    ∀ (rows : List Row), (∃ row ∈ rows, rowIsValid row = true) →
      ∀ paths count, ∃ c,
        processLoop false rows paths count = ([], c, true) := by
  intro rows
  induction rows with
  | nil => rintro ⟨row, hmem, _⟩; exact absurd hmem (by simp)
  | cons row rest ih =>
    rintro ⟨r0, hmem, hv0⟩ paths count
    rcases hr : rowToReplacements row with _ | repl
    · have hne : r0 ≠ row := by
        rintro rfl
        rw [rowIsValid, hr] at hv0; simp at hv0
      have hmem' : r0 ∈ rest := by
        rcases List.mem_cons.mp hmem with h | h
        · exact absurd h hne
        · exact h
      simp only [processLoop, hr]
      exact ih ⟨r0, hmem', hv0⟩ paths count
    · exact ⟨count, by simp [processLoop, hr]⟩

/-- C8: when the template file cannot be located the run returns no
documents whatever the spreadsheet contains, and as soon as any row is
valid it aborts through the early `return []` (so no final report is
ever printed). -/
theorem C8_template_missing (rows : List Row) :
    (process_excel_and_generate_docs false rows).1 = []
    ∧ ((rows.any fun r => rowIsValid r) = true →
        (process_excel_and_generate_docs false rows).2 = none) := by
  by_cases hq : (rows.any fun r => rowIsValid r) = true
  · rcases processLoop_noTemplate_someValid rows
      (by simpa [List.any_eq_true] using hq) [] 0 with ⟨c, hc⟩
    unfold process_excel_and_generate_docs
    rw [hc]
    exact ⟨rfl, fun _ => rfl⟩
  · have hall : ∀ row ∈ rows, rowIsValid row = false := by
      intro row hrow
      by_contra hcon
      exact hq (List.any_eq_true.mpr ⟨row, hrow, by simpa using hcon⟩)
    unfold process_excel_and_generate_docs
    rw [processLoop_noTemplate_allInvalid rows hall [] 0]
    exact ⟨rfl, fun habs => absurd habs hq⟩

/-- The valid row of the C8 witness. -/
def c8Row : Row :=
  { bukkenName := some "サンプル物件".data,
    yoteiStart := some (some { year := 2025, month := 1, day := 6,
                               hour := 9, minute := 30 }),
    yoteiEnd := some (some { year := 2025, month := 1, day := 6,
                             hour := 12, minute := 0 }) }

/-- Witness for C8 at a one-row spreadsheet with a valid row. -/
theorem C8_template_missing_witness :
    (process_excel_and_generate_docs false [c8Row]).1 = []
    ∧ (process_excel_and_generate_docs false [c8Row]).2 = none :=
  ⟨(C8_template_missing [c8Row]).1,
   (C8_template_missing [c8Row]).2 (by decide)⟩

end Harigami

namespace Harigami

/-- An element of multiplicity at least two breaks `Nodup`. -/
theorem not_nodup_of_two_le_count :
    ∀ (l : List (List Char)) (a : List Char),
      2 ≤ l.count a → ¬ l.Nodup := by
  intro l
  induction l with
  | nil => intro a h; simp [List.count_nil] at h
  | cons x xs ih =>
    intro a h hnd
    rw [List.count_cons] at h
    rcases List.nodup_cons.mp hnd with ⟨hxmem, hxs⟩
    by_cases hxa : x = a
    · subst hxa
      simp only [beq_self_eq_true, if_true] at h
      exact hxmem (List.count_pos_iff.mp (by omega))
    · have hne : (x == a) = false := by simpa using hxa
      rw [hne] at h
      simp only [Bool.false_eq_true, if_false] at h
      exact ih a (by omega) hxs

/-- A list with an element of multiplicity two loses length under
deduplication. -/
theorem dedup_length_lt_of_two_le_count {l : List (List Char)}
    {a : List Char} (h : 2 ≤ l.count a) : l.dedup.length < l.length := by
  have hnd : ¬ l.Nodup := not_nodup_of_two_le_count l a h
  rcases Nat.lt_or_ge l.dedup.length l.length with hlt | hge
  · exact hlt
  · have heq : l.dedup.length = l.length :=
      Nat.le_antisymm (l.dedup_sublist.length_le) hge
    have hdl : l.dedup = l := l.dedup_sublist.eq_of_length heq
    exact absurd (hdl ▸ l.nodup_dedup) hnd

end Harigami

namespace Harigami

/-- C10: two valid rows whose property names sanitize to the same
filename write to the same output path; the returned path list contains
that path at least twice, so the success count exceeds the number of
distinct output files. -/
theorem C10_duplicate_filenames
    (pre mid post : List Row) (r1 r2 : Row) (rep1 rep2 : Replacements)
    (h1 : rowToReplacements r1 = some rep1)
    (h2 : rowToReplacements r2 = some rep2)
    (hsame : safeName rep1.name = safeName rep2.name) :
    pathOfRow r2 = pathOfRow r1
    ∧ 2 ≤ (process_excel_and_generate_docs true
        (pre ++ r1 :: mid ++ r2 :: post)).1.count (pathOfRow r1)
    ∧ (process_excel_and_generate_docs true
        (pre ++ r1 :: mid ++ r2 :: post)).1.dedup.length <
      (process_excel_and_generate_docs true
        (pre ++ r1 :: mid ++ r2 :: post)).1.length := by
  have hpath : pathOfRow r2 = pathOfRow r1 := by
    simp [pathOfRow, h1, h2, outputPath, outputFileName, hsame]
  have hv1 : rowIsValid r1 = true := by simp [rowIsValid, h1]
  have hv2 : rowIsValid r2 = true := by simp [rowIsValid, h2]
  have hpaths : (process_excel_and_generate_docs true
      (pre ++ r1 :: mid ++ r2 :: post)).1 =
      ((pre ++ r1 :: mid ++ r2 :: post).filter rowIsValid).map pathOfRow :=
    (C7_end_to_end (pre ++ r1 :: mid ++ r2 :: post)).1
  have hfilter : (pre ++ r1 :: mid ++ r2 :: post).filter rowIsValid =
      pre.filter rowIsValid ++ r1 :: (mid.filter rowIsValid ++
        r2 :: post.filter rowIsValid) := by
    simp [List.filter_append, List.filter_cons, hv1, hv2]
  have hcount : 2 ≤ (process_excel_and_generate_docs true
      (pre ++ r1 :: mid ++ r2 :: post)).1.count (pathOfRow r1) := by
    rw [hpaths, hfilter]
    simp only [List.map_append, List.map_cons, List.count_append,
      List.count_cons, hpath, beq_self_eq_true, if_true]
    omega
  exact ⟨hpath, hcount, dedup_length_lt_of_two_le_count hcount⟩

end Harigami

namespace Harigami

/-- The two rows of the C10 witness: `Tower A` and `Tower:A`, which both
sanitize to `Tower_A`. -/
def c10RowA : Row :=
  { bukkenName := some "Tower A".data,
    yoteiStart := some (some { year := 2024, month := 10, day := 19,
                               hour := 10, minute := 0 }),
    yoteiEnd := some (some { year := 2024, month := 10, day := 19,
                             hour := 11, minute := 0 }) }

def c10RowB : Row :=
  { bukkenName := some "Tower:A".data,
    yoteiStart := some (some { year := 2024, month := 10, day := 26,
                               hour := 13, minute := 0 }),
    yoteiEnd := some (some { year := 2024, month := 10, day := 26,
                             hour := 15, minute := 30 }) }

def c10RepA : Replacements :=
  { date_str := "10月19日（土）".data, start_str := "10:00".data,
    end_str := "11:00".data, name := "Tower A".data }

def c10RepB : Replacements :=
  { date_str := "10月26日（土）".data, start_str := "13:00".data,
    end_str := "15:30".data, name := "Tower:A".data }

/-- Witness for C10 at a concrete two-row spreadsheet. -/
theorem C10_duplicate_filenames_witness :
    pathOfRow c10RowB = pathOfRow c10RowA
    ∧ 2 ≤ (process_excel_and_generate_docs true
        [c10RowA, c10RowB]).1.count (pathOfRow c10RowA)
    ∧ (process_excel_and_generate_docs true
        [c10RowA, c10RowB]).1.dedup.length <
      (process_excel_and_generate_docs true [c10RowA, c10RowB]).1.length :=
  C10_duplicate_filenames [] [] [] c10RowA c10RowB c10RepA c10RepB
    (by decide) (by decide) (by decide)

end Harigami
